import Mathlib

/-!
Verification of the command-execution and measurement subsystem of
`scripts/retdec-utils.py` (class `CmdRunner`).

The Python code is shallowly embedded as pure Lean functions:

* `strip_shell_colors` models `re.sub(r'\x1b[^m]*m', '', text)`;
* `get_memory_from_measured_output` models the regex search for
  `Maximum resident set size (kbytes): (\d+)` followed by the
  kilobyte-to-megabyte conversion;
* `get_clean_output_from_measured_output` models the two sequential
  `str.split(...)[0]` cuts followed by `str.rstrip()`;
* `runCmdFull` models `CmdRunner._run_cmd`: the outcome of the child
  process (normal completion with captured text and exit code, or an
  expired timeout with the text captured so far) is passed in as an
  explicit `ChildOutcome` value, and the subprocess machinery is
  abstracted away.  The function is total: the timeout branch is an
  ordinary return, mirroring the `except subprocess.TimeoutExpired`
  handler that returns instead of re-raising.
* `run_cmd` and `runMeasuredCmd` model the two public entry points;
  the wall-clock duration `time.time() - start` of a measured run is
  passed in as an explicit rational number.
-/

namespace RetdecUtils

/-- Escape character that opens an ANSI color sequence. -/
def escChar : Char := '\x1b'

/-- Whitespace test used by Python str.rstrip (Unicode whitespace). -/
def pyIsSpace (c : Char) : Bool :=
  c = ' ' || c = '\t' || c = '\n' || c = '\r' || c = '\x0b' || c = '\x0c' ||
  (0x1c ≤ c.toNat && c.toNat ≤ 0x1f) || c.toNat = 0x85 || c.toNat = 0xa0 ||
  c.toNat = 0x1680 || (0x2000 ≤ c.toNat && c.toNat ≤ 0x200a) ||
  c.toNat = 0x2028 || c.toNat = 0x2029 || c.toNat = 0x202f ||
  c.toNat = 0x205f || c.toNat = 0x3000

/-- Model of Python str.rstrip on the character list of a string. -/
def rstripList (l : List Char) : List Char :=
  (l.reverse.dropWhile pyIsSpace).reverse

/-- Model of Python str.rstrip. -/
def pyRstrip (s : String) : String := String.mk (rstripList s.data)

/-- Helper for the ANSI color stripping pass, computed right to left.
For a list `l` it returns the pair of

* the result of `re.sub(r'\x1b[^m]*m', '', l)`, and
* `some u` when `l` contains the letter m, where `u` is the result of
  the same substitution applied to the part of `l` after its first m
  (`none` when `l` has no m at all).

The regular expression can only match starting at an escape character,
and such a match always extends exactly through the first m after it
(the class excludes m and is greedy), after which scanning resumes; an
escape character with no later m never matches.  The second component
provides exactly the lookahead needed to express that scan by
structural recursion. -/
def stripColorsAux : List Char → List Char × Option (List Char)
  | [] => ([], none)
  | c :: cs =>
    match stripColorsAux cs with
    | (s, t) =>
      ( if c = escChar then
          match t with
          | some u => u
          | none => c :: s
        else c :: s
      , if c = 'm' then some s else t )

/-- Result of `re.sub(r'\x1b[^m]*m', '', l)` on a character list. -/
def stripColorsList (l : List Char) : List Char := (stripColorsAux l).1

/-- Model of `CmdRunner._strip_shell_colors` (line 132). -/
def strip_shell_colors (s : String) : String :=
  String.mk (stripColorsList s.data)

/-- Predicate: no ANSI color sequence is left, i.e. every escape
character in the list has no m after it, so the color regex has no
match anywhere. -/
def isClean : List Char → Bool
  | [] => true
  | c :: cs => (if c = escChar then !(cs.contains 'm') else true) && isClean cs

/-- Literal text of the memory marker searched by
`_get_memory_from_measured_output`. -/
def markerChars : List Char := "Maximum resident set size (kbytes): ".data

/-- Match a literal pattern at the head of a list, returning the
remainder after the pattern on success. -/
def dropPrefixAfter : List Char → List Char → Option (List Char)
  | [], s => some s
  | _ :: _, [] => none
  | p :: ps, c :: cs => if c = p then dropPrefixAfter ps cs else none

/-- Model of `re.search(r'Maximum resident set size \(kbytes\): (\d+)', l)`,
returning the digits of group 1 of the leftmost match: the first
position where the literal marker is followed by at least one decimal
digit, with the group extending over the maximal digit run. -/
def searchMarker : List Char → Option (List Char)
  | [] => none
  | c :: cs =>
    match dropPrefixAfter markerChars (c :: cs) with
    | some rest =>
      if rest.takeWhile Char.isDigit = [] then searchMarker cs
      else some (rest.takeWhile Char.isDigit)
    | none => searchMarker cs

/-- Numeric value of a decimal digit string, as computed by Python int. -/
def natOfDigits (ds : List Char) : Nat :=
  ds.foldl (fun a c => a * 10 + (c.toNat - 48)) 0

/-- Model of `CmdRunner._get_memory_from_measured_output` (lines 136-148):
search for the marker; on a match convert the kilobyte count to whole
megabytes rounding down, and replace a zero result by 1; without a
match report 0.  The Python float division by 1024 followed by int is
modelled as exact integer division. -/
def get_memory_from_measured_output (s : String) : Nat :=
  match searchMarker s.data with
  | none => 0
  | some ds =>
    if natOfDigits ds / 1024 = 0 then 1 else natOfDigits ds / 1024

/-- Literal text of the success boundary marker of /usr/bin/time. -/
def timedMarker : List Char := "Command being timed:".data

/-- Literal text of the failure boundary marker of /usr/bin/time. -/
def exitedMarker : List Char := "Command exited with non-zero status".data

/-- Model of Python `s.split(m)[0]` for a nonempty separator `m`: the
part of the list before the first occurrence of `m`, or the whole list
when `m` does not occur. -/
def splitHead (m : List Char) : List Char → List Char
  | [] => []
  | c :: cs =>
    if (dropPrefixAfter m (c :: cs)).isSome then []
    else c :: splitHead m cs

/-- Model of `CmdRunner._get_clean_output_from_measured_output`
(lines 150-173): cut at the success marker, then cut at the failure
marker, then strip trailing whitespace. -/
def get_clean_output_from_measured_output (s : String) : String :=
  String.mk (rstripList (splitHead exitedMarker (splitHead timedMarker s.data)))

/-- Outcome of the child process of one `_run_cmd` call, abstracting the
subprocess machinery: either `p.communicate` returned with the full
captured text and the exit code of the process, or the timeout expired
and the text captured up to that point is drained afterwards. -/
inductive ChildOutcome where
  | completed (captured : String) (exitCode : Int)
  | timeoutExpired (captured : String)
deriving DecidableEq

/-- Result quadruple of `_run_cmd`. -/
structure RunResult where
  memory : Nat
  output : Option String
  returnCode : Int
  timedOut : Bool
deriving DecidableEq

/-- Base output cleanup shared by both branches of `_run_cmd`
(lines 89-90 and 101-102): rstrip, then strip shell colors. -/
def basePost (s : String) : String := strip_shell_colors (pyRstrip s)

/-- Model of `CmdRunner._run_cmd` (lines 71-103).  The boolean
`toolExists` models `Utils.tool_exists(config.LOG_TIME[0])`; memory is
only tracked when both `trackMemory` and `toolExists` hold (line 75).
With `bufferOutput` false `p.communicate` yields None, modelled as
`none`; with it true the captured text is returned.  An empty captured
text is falsy in Python, so the `if output:` block is skipped and the
empty string is returned unprocessed.  On the timeout branch memory is
still 0, the return code is the sentinel `TIMEOUT_RC = 137`, the
timeout flag is true, and only the base cleanup runs. -/
def runCmdFull (bufferOutput trackMemory toolExists : Bool)
    (outcome : ChildOutcome) : RunResult :=
  match outcome with
  | .completed captured rc =>
    if bufferOutput then
      if captured = "" then ⟨0, some captured, rc, false⟩
      else
        if trackMemory && toolExists then
          ⟨get_memory_from_measured_output (basePost captured),
           some (get_clean_output_from_measured_output (basePost captured)),
           rc, false⟩
        else ⟨0, some (basePost captured), rc, false⟩
    else ⟨0, none, rc, false⟩
  | .timeoutExpired captured =>
    if bufferOutput then
      if captured = "" then ⟨0, some captured, 137, true⟩
      else ⟨0, some (basePost captured), 137, true⟩
    else ⟨0, none, 137, true⟩

/-- Model of `CmdRunner.run_cmd` (lines 28-56): delegate to `_run_cmd`
with memory tracking off and drop the memory component. -/
def runCmd (bufferOutput toolExists : Bool) (outcome : ChildOutcome) :
    Option String × Int × Bool :=
  ((runCmdFull bufferOutput false toolExists outcome).output,
   (runCmdFull bufferOutput false toolExists outcome).returnCode,
   (runCmdFull bufferOutput false toolExists outcome).timedOut)

/-- Result quadruple of `runMeasuredCmd`.  Note that the type has no
timeout flag: the Python code discards the `timeouted` component of
`_run_cmd` with `_`. -/
structure MeasuredResult where
  memory : Nat
  elapsed : Int
  output : Option String
  returnCode : Int
deriving DecidableEq

/-- Truncation toward zero, the behaviour of Python int on a float. -/
def ratTrunc (q : ℚ) : Int :=
  if q < 0 then -(⌊-q⌋) else ⌊q⌋

/-- Modelled from the spec: rounding to the nearest integer, the
`round(end-start)` that section 4.2 step 2 of the spec prescribes for
the elapsed time of a measured run (round half up; it agrees with every
round-to-nearest convention away from ties). -/
def roundNearest (q : ℚ) : Int := ⌊q + 1 / 2⌋

/-- Model of `CmdRunner.runMeasuredCmd` (lines 58-69): delegate to
`_run_cmd` with buffering and memory tracking forced on, compute
`elapsed = int(end - start)` replacing 0 by 1, and return the quadruple
(memory, elapsed, output, return code); the timeout flag is dropped.
The wall-clock duration `end - start` is the explicit argument
`duration`. -/
def runMeasuredCmd (toolExists : Bool) (duration : ℚ)
    (outcome : ChildOutcome) : MeasuredResult :=
  ⟨(runCmdFull true true toolExists outcome).memory,
   (fun e => if e = 0 then 1 else e) (ratTrunc duration),
   (runCmdFull true true toolExists outcome).output,
   (runCmdFull true true toolExists outcome).returnCode⟩

/-- Index of the first occurrence of the pattern `m` in a list, if any. -/
def firstOccIdx (m : List Char) : List Char → Option Nat
  | [] => none
  | c :: cs =>
    if (dropPrefixAfter m (c :: cs)).isSome then some 0
    else (firstOccIdx m cs).map (· + 1)

/-- Cut index of a marker: the index of its first occurrence, or the
length of the text when it does not occur. -/
def occIdx (m s : List Char) : Nat := (firstOccIdx m s).getD s.length

/-- Modelled from the spec: the cut point of the cleaned measured
output is whichever of the two /usr/bin/time boundary markers occurs
first in the captured text, and everything before it is the real
program output (section 4.2 step 3 of the spec). -/
def specCutAtEarlierMarker (s : List Char) : List Char :=
  s.take (min (occIdx timedMarker s) (occIdx exitedMarker s))

/-! ### Lemmas about the color stripping pass -/

theorem stripAux_cons_fst (c : Char) (cs : List Char) :
    (stripColorsAux (c :: cs)).1 =
      if c = escChar then
        match (stripColorsAux cs).2 with
        | some u => u
        | none => c :: (stripColorsAux cs).1
      else c :: (stripColorsAux cs).1 := rfl

theorem stripAux_cons_snd (c : Char) (cs : List Char) :
    (stripColorsAux (c :: cs)).2 =
      if c = 'm' then some (stripColorsAux cs).1 else (stripColorsAux cs).2 := rfl

theorem contains_m_eq_false_iff (l : List Char) :
    (l.contains 'm' = false) ↔ 'm' ∉ l := by
  simp [List.contains]

theorem stripAux_snd_none_iff (l : List Char) :
    (stripColorsAux l).2 = none ↔ 'm' ∉ l := by
  induction l with
  | nil => simp [stripColorsAux]
  | cons c cs ih =>
    rw [stripAux_cons_snd]
    by_cases hm : c = 'm'
    · subst hm; simp
    · simp only [if_neg hm, ih, List.mem_cons]
      constructor
      · intro h hmem
        rcases hmem with h1 | h2
        · exact hm h1.symm
        · exact h h2
      · intro h h2
        exact h (Or.inr h2)

theorem stripAux_fst_cons_ne {c : Char} (cs : List Char) (h : c ≠ escChar) :
    (stripColorsAux (c :: cs)).1 = c :: (stripColorsAux cs).1 := by
  rw [stripAux_cons_fst, if_neg h]

theorem stripAux_fst_esc_none {cs : List Char}
    (h : (stripColorsAux cs).2 = none) :
    (stripColorsAux (escChar :: cs)).1 = escChar :: (stripColorsAux cs).1 := by
  rw [stripAux_cons_fst, if_pos rfl, h]

theorem stripAux_fst_esc_some {cs u : List Char}
    (h : (stripColorsAux cs).2 = some u) :
    (stripColorsAux (escChar :: cs)).1 = u := by
  rw [stripAux_cons_fst, if_pos rfl, h]

theorem stripAux_mem (l : List Char) :
    (∀ x ∈ (stripColorsAux l).1, x ∈ l) ∧
      (∀ u, (stripColorsAux l).2 = some u → ∀ x ∈ u, x ∈ l) := by
  induction l with
  | nil => simp [stripColorsAux]
  | cons c cs ih =>
    obtain ⟨ih1, ih2⟩ := ih
    constructor
    · intro x hx
      by_cases hesc : c = escChar
      · subst hesc
        rcases ht : (stripColorsAux cs).2 with _ | u
        · rw [stripAux_fst_esc_none ht] at hx
          rcases List.mem_cons.mp hx with h1 | h2
          · exact List.mem_cons.mpr (Or.inl h1)
          · exact List.mem_cons_of_mem _ (ih1 x h2)
        · rw [stripAux_fst_esc_some ht] at hx
          exact List.mem_cons_of_mem _ (ih2 u ht x hx)
      · rw [stripAux_fst_cons_ne cs hesc] at hx
        rcases List.mem_cons.mp hx with h1 | h2
        · exact List.mem_cons.mpr (Or.inl h1)
        · exact List.mem_cons_of_mem _ (ih1 x h2)
    · intro u hu x hx
      rw [stripAux_cons_snd] at hu
      by_cases hm : c = 'm'
      · rw [if_pos hm] at hu
        obtain rfl : (stripColorsAux cs).1 = u := by injection hu
        exact List.mem_cons_of_mem c (ih1 x hx)
      · rw [if_neg hm] at hu
        exact List.mem_cons_of_mem c (ih2 u hu x hx)

theorem stripAux_isClean (l : List Char) :
    isClean (stripColorsAux l).1 = true ∧
      (∀ u, (stripColorsAux l).2 = some u → isClean u = true) := by
  induction l with
  | nil => simp [stripColorsAux, isClean]
  | cons c cs ih =>
    obtain ⟨ih1, ih2⟩ := ih
    constructor
    · by_cases hesc : c = escChar
      · subst hesc
        rcases ht : (stripColorsAux cs).2 with _ | u
        · have hnm : 'm' ∉ cs := (stripAux_snd_none_iff cs).mp ht
          have hnm1 : 'm' ∉ (stripColorsAux cs).1 := fun h =>
            hnm ((stripAux_mem cs).1 'm' h)
          rw [stripAux_fst_esc_none ht]
          simp [isClean, hnm1, ih1]
        · rw [stripAux_fst_esc_some ht]
          exact ih2 u ht
      · rw [stripAux_fst_cons_ne cs hesc]
        simp [isClean, hesc, ih1]
    · intro u hu
      rw [stripAux_cons_snd] at hu
      by_cases hm : c = 'm'
      · rw [if_pos hm] at hu
        obtain rfl : (stripColorsAux cs).1 = u := by injection hu
        exact ih1
      · rw [if_neg hm] at hu
        exact ih2 u hu

theorem stripColorsList_of_isClean (l : List Char) (h : isClean l = true) :
    stripColorsList l = l := by
  induction l with
  | nil => rfl
  | cons c cs ih =>
    have h2 : isClean cs = true := by
      rw [isClean, Bool.and_eq_true] at h
      exact h.2
    by_cases hesc : c = escChar
    · have hnm : cs.contains 'm' = false := by
        rw [isClean, Bool.and_eq_true, if_pos hesc] at h
        simpa using h.1
      have : (stripColorsAux cs).2 = none :=
        (stripAux_snd_none_iff cs).mpr ((contains_m_eq_false_iff cs).mp hnm)
      rw [stripColorsList, stripAux_cons_fst, if_pos hesc, this]
      rw [hesc]
      exact congrArg (escChar :: ·) (ih h2)
    · rw [stripColorsList, stripAux_cons_fst, if_neg hesc]
      exact congrArg (c :: ·) (ih h2)

theorem stripColorsList_idem (l : List Char) :
    stripColorsList (stripColorsList l) = stripColorsList l :=
  stripColorsList_of_isClean _ (stripAux_isClean l).1

/-! ### Elapsed time of measured runs -/

theorem elapsed_eq_max_one_floor (toolExists : Bool) (d : ℚ)
    (o : ChildOutcome) (hd : 0 ≤ d) :
    (runMeasuredCmd toolExists d o).elapsed = max 1 ⌊d⌋ := by
  have hfl : ratTrunc d = ⌊d⌋ := by
    rw [ratTrunc, if_neg (not_lt.mpr hd)]
  have h0 : (0 : ℤ) ≤ ⌊d⌋ := Int.le_floor.mpr (by exact_mod_cast hd)
  show (if ratTrunc d = 0 then 1 else ratTrunc d) = max 1 ⌊d⌋
  rw [hfl]
  by_cases h : ⌊d⌋ = (0 : ℤ)
  · rw [if_pos h, h]; rfl
  · rw [if_neg h]; omega

/-! ### Lemmas about the memory marker search -/

theorem dropPrefixAfter_append (p t : List Char) :
    dropPrefixAfter p (p ++ t) = some t := by
  induction p with
  | nil => rfl
  | cons c cs ih => simp [dropPrefixAfter, ih]

theorem takeWhile_append_of (p : Char → Bool) (l r : List Char)
    (hl : ∀ c ∈ l, p c = true)
    (hr : r.head?.all (fun c => !p c) = true) :
    (l ++ r).takeWhile p = l := by
  induction l with
  | nil =>
    cases r with
    | nil => rfl
    | cons c rs =>
      have hc : p c = false := by simpa using hr
      simp [List.takeWhile_cons, hc]
  | cons c cs ih =>
    have hc : p c = true := hl c (List.mem_cons_self c cs)
    rw [List.cons_append, List.takeWhile_cons, if_pos hc]
    exact congrArg (c :: ·) (ih fun x hx => hl x (List.mem_cons_of_mem c hx))

theorem searchMarker_of_drop (l rest : List Char) (hl : l ≠ [])
    (hdrop : dropPrefixAfter markerChars l = some rest)
    (hne : rest.takeWhile Char.isDigit ≠ []) :
    searchMarker l = some (rest.takeWhile Char.isDigit) := by
  cases l with
  | nil => exact absurd rfl hl
  | cons c cs =>
    rw [searchMarker, hdrop]
    simp [hne]

/-! ### Lemmas about marker occurrences and the cut point -/

theorem dropPrefixAfter_isSome_iff (m : List Char) :
    ∀ l : List Char, (dropPrefixAfter m l).isSome = true ↔ ∃ t, m ++ t = l := by
  induction m with
  | nil =>
    intro l
    simp [dropPrefixAfter]
  | cons p ps ih =>
    intro l
    cases l with
    | nil =>
      simp [dropPrefixAfter]
    | cons c cs =>
      by_cases hc : c = p
      · subst hc
        rw [dropPrefixAfter, if_pos rfl, ih cs]
        constructor
        · rintro ⟨t, rfl⟩; exact ⟨t, rfl⟩
        · rintro ⟨t, ht⟩
          exact ⟨t, by simpa using ht⟩
      · rw [dropPrefixAfter, if_neg hc]
        simp only [Option.isSome_none, Bool.false_eq_true, false_iff]
        rintro ⟨t, ht⟩
        exact hc (by injection ht with h1 h2; exact h1.symm)

theorem splitHead_eq_take (m : List Char) :
    ∀ s : List Char, splitHead m s = s.take (occIdx m s) := by
  intro s
  induction s with
  | nil => simp [splitHead]
  | cons c cs ih =>
    by_cases h : (dropPrefixAfter m (c :: cs)).isSome = true
    · rw [splitHead, if_pos h, occIdx, firstOccIdx, if_pos h]
      rfl
    · rw [splitHead, if_neg h, occIdx, firstOccIdx, if_neg h]
      cases hfo : firstOccIdx m cs with
      | none =>
        rw [ih, occIdx, hfo]
        rfl
      | some i =>
        rw [ih, occIdx, hfo]
        rfl

theorem firstOccIdx_some_occ {m s : List Char} {i : Nat}
    (h : firstOccIdx m s = some i) : ∃ t, m ++ t = s.drop i := by
  induction s generalizing i with
  | nil => exact absurd h (by rw [firstOccIdx]; simp)
  | cons c cs ih =>
    by_cases hd : (dropPrefixAfter m (c :: cs)).isSome = true
    · rw [firstOccIdx, if_pos hd] at h
      obtain rfl : i = 0 := by injection h with h1; exact h1.symm
      exact (dropPrefixAfter_isSome_iff m (c :: cs)).mp hd
    · rw [firstOccIdx, if_neg hd] at h
      cases hfo : firstOccIdx m cs with
      | none => rw [hfo] at h; exact absurd h (by simp)
      | some i0 =>
        rw [hfo] at h
        obtain rfl : i = i0 + 1 := by injection h with h1; exact h1.symm
        exact ih hfo

theorem firstOccIdx_some_min {m s : List Char} {i : Nat}
    (h : firstOccIdx m s = some i) :
    ∀ j < i, ¬ ∃ t, m ++ t = s.drop j := by
  induction s generalizing i with
  | nil => exact absurd h (by rw [firstOccIdx]; simp)
  | cons c cs ih =>
    by_cases hd : (dropPrefixAfter m (c :: cs)).isSome = true
    · rw [firstOccIdx, if_pos hd] at h
      obtain rfl : i = 0 := by injection h with h1; exact h1.symm
      intro j hj
      exact absurd hj (Nat.not_lt_zero j)
    · rw [firstOccIdx, if_neg hd] at h
      cases hfo : firstOccIdx m cs with
      | none => rw [hfo] at h; exact absurd h (by simp)
      | some i0 =>
        rw [hfo] at h
        obtain rfl : i = i0 + 1 := by injection h with h1; exact h1.symm
        intro j hj
        cases j with
        | zero =>
          intro hocc
          exact hd ((dropPrefixAfter_isSome_iff m (c :: cs)).mpr hocc)
        | succ j0 =>
          exact ih hfo j0 (by omega)

theorem firstOccIdx_none_no_occ {m s : List Char} (hm : m ≠ [])
    (h : firstOccIdx m s = none) :
    ∀ j, ¬ ∃ t, m ++ t = s.drop j := by
  induction s with
  | nil =>
    intro j hocc
    obtain ⟨t, ht⟩ := hocc
    rw [List.drop_nil] at ht
    exact hm (List.append_eq_nil.mp ht).1
  | cons c cs ih =>
    by_cases hd : (dropPrefixAfter m (c :: cs)).isSome = true
    · rw [firstOccIdx, if_pos hd] at h
      exact absurd h (by simp)
    · rw [firstOccIdx, if_neg hd] at h
      have hcs : firstOccIdx m cs = none := by
        cases hfo : firstOccIdx m cs with
        | none => rfl
        | some i0 => rw [hfo] at h; exact absurd h (by simp)
      intro j
      cases j with
      | zero =>
        intro hocc
        exact hd ((dropPrefixAfter_isSome_iff m (c :: cs)).mpr hocc)
      | succ j0 =>
        exact ih hcs j0

theorem firstOccIdx_some_le {m s : List Char} {i : Nat}
    (h : firstOccIdx m s = some i) : i ≤ s.length := by
  induction s generalizing i with
  | nil => exact absurd h (by rw [firstOccIdx]; simp)
  | cons c cs ih =>
    by_cases hd : (dropPrefixAfter m (c :: cs)).isSome = true
    · rw [firstOccIdx, if_pos hd] at h
      obtain rfl : i = 0 := by injection h with h1; exact h1.symm
      exact Nat.zero_le _
    · rw [firstOccIdx, if_neg hd] at h
      cases hfo : firstOccIdx m cs with
      | none => rw [hfo] at h; exact absurd h (by simp)
      | some i0 =>
        rw [hfo] at h
        obtain rfl : i = i0 + 1 := by injection h with h1; exact h1.symm
        have := ih hfo
        simp only [List.length_cons]
        omega

theorem occ_length_le {m s : List Char} {i : Nat} (hm : m ≠ [])
    (hocc : ∃ t, m ++ t = s.drop i) : i + m.length ≤ s.length := by
  obtain ⟨t, ht⟩ := hocc
  have hne : s.drop i ≠ [] := by
    rw [← ht]
    intro hh
    exact hm (List.append_eq_nil.mp hh).1
  have hlt : i < s.length := List.length_lt_of_drop_ne_nil hne
  have hlen := congrArg List.length ht
  rw [List.length_append, List.length_drop] at hlen
  omega

theorem firstOccIdx_of_min {m s : List Char} {i : Nat} (hm : m ≠ [])
    (hocc : ∃ t, m ++ t = s.drop i)
    (hmin : ∀ j < i, ¬ ∃ t, m ++ t = s.drop j) :
    firstOccIdx m s = some i := by
  cases h : firstOccIdx m s with
  | none => exact absurd hocc (firstOccIdx_none_no_occ hm h i)
  | some i0 =>
    have h1 := firstOccIdx_some_occ h
    have h2 := firstOccIdx_some_min h
    rcases Nat.lt_trichotomy i0 i with hlt | heq | hgt
    · exact absurd h1 (hmin i0 hlt)
    · rw [heq]
    · exact absurd hocc (h2 i hgt)

theorem occIdx_le_length (m s : List Char) : occIdx m s ≤ s.length := by
  rw [occIdx]
  cases h : firstOccIdx m s with
  | none => exact Nat.le_refl _
  | some i => exact firstOccIdx_some_le h

theorem occ_of_occ_in_take {m s : List Char} {n j : Nat}
    (hocc : ∃ t, m ++ t = (s.take n).drop j) : ∃ t, m ++ t = s.drop j := by
  obtain ⟨t, ht⟩ := hocc
  rw [List.drop_take] at ht
  refine ⟨t ++ (s.drop j).drop (n - j), ?_⟩
  rw [← List.append_assoc, ht, List.take_append_drop]

theorem occ_in_take_of_occ {m s : List Char} {n j : Nat}
    (hocc : ∃ t, m ++ t = s.drop j) (hfit : j + m.length ≤ n) :
    ∃ t, m ++ t = (s.take n).drop j := by
  obtain ⟨t, ht⟩ := hocc
  refine ⟨t.take (n - j - m.length), ?_⟩
  rw [List.drop_take, ← ht, List.take_append_eq_append_take,
    List.take_of_length_le (show m.length ≤ n - j by omega)]

theorem exited_no_timed_inside {l : List Char} {k : Nat}
    (hE : ∃ t, exitedMarker ++ t = l)
    (hT : ∃ t, timedMarker ++ t = l.drop k)
    (h0 : 0 < k) (hk : k < exitedMarker.length) : False := by
  obtain ⟨t, ht⟩ := hE
  obtain ⟨t2, ht2⟩ := hT
  have hhead : (l.drop k).head? = some 'C' := by
    rw [← ht2]
    rfl
  rw [List.head?_drop] at hhead
  have hget : l[k]? = exitedMarker[k]? := by
    rw [← ht, List.getElem?_append_left hk]
  rw [hget] at hhead
  have hbound : ∀ k2, k2 < 35 → 0 < k2 → exitedMarker[k2]? ≠ some 'C' := by decide
  have hlen : exitedMarker.length = 35 := by decide
  exact hbound k (by omega) h0 hhead

theorem prefix_of_append_of_le {a pre rest : List Char}
    (h : ∃ t, a ++ t = pre ++ rest) (hle : a.length ≤ pre.length) :
    ∃ t, a ++ t = pre := by
  obtain ⟨t, ht⟩ := h
  have ha : a = pre.take a.length := by
    have h2 := congrArg (List.take a.length) ht
    rw [List.take_left' rfl, List.take_append_eq_append_take,
      Nat.sub_eq_zero_of_le hle, List.take_zero, List.append_nil] at h2
    exact h2
  have h3 := List.take_append_drop a.length pre
  rw [← ha] at h3
  exact ⟨pre.drop a.length, h3⟩

theorem marker_not_inside_marker {pre X t : List Char}
    (ht : markerChars ++ t = pre ++ (markerChars ++ X))
    (h0 : 0 < pre.length) (hk : pre.length < markerChars.length) : False := by
  have h1 : (markerChars ++ t)[pre.length]? = markerChars[pre.length]? :=
    List.getElem?_append_left hk
  have h2 : (pre ++ (markerChars ++ X))[pre.length]? = (markerChars ++ X)[0]? := by
    rw [List.getElem?_append_right (Nat.le_refl pre.length), Nat.sub_self]
  have h3 : (markerChars ++ X)[0]? = some 'M' := rfl
  have hM : markerChars[pre.length]? = some 'M' := by
    rw [← h1, ht, h2, h3]
  have hbound : ∀ k, k < 36 → 0 < k → markerChars[k]? ≠ some 'M' := by decide
  have hlen : markerChars.length = 36 := by decide
  exact hbound pre.length (by omega) h0 hM

theorem searchMarker_first_at (pre ds post : List Char)
    (hne : ds ≠ []) (hds : ∀ c ∈ ds, c.isDigit = true)
    (hpost : post.head?.all (fun c => !c.isDigit) = true)
    (hpre : ∀ j < pre.length, (dropPrefixAfter markerChars (pre.drop j)).isSome = false) :
    searchMarker (pre ++ (markerChars ++ (ds ++ post))) = some ds := by
  induction pre with
  | nil =>
    have htw : (ds ++ post).takeWhile Char.isDigit = ds :=
      takeWhile_append_of _ _ _ hds hpost
    have h := searchMarker_of_drop (markerChars ++ (ds ++ post)) (ds ++ post)
      (List.append_ne_nil_of_left_ne_nil (by decide) _)
      (dropPrefixAfter_append _ _) (by rw [htw]; exact hne)
    rw [htw] at h
    exact h
  | cons c pre' ih =>
    cases hdp : dropPrefixAfter markerChars (c :: (pre' ++ (markerChars ++ (ds ++ post)))) with
    | some rest =>
      exfalso
      have hocc : ∃ t, markerChars ++ t = (c :: pre') ++ (markerChars ++ (ds ++ post)) := by
        rw [List.cons_append]
        exact (dropPrefixAfter_isSome_iff markerChars _).mp (by rw [hdp]; rfl)
      by_cases hfits : markerChars.length ≤ (c :: pre').length
      · have hpp := prefix_of_append_of_le hocc hfits
        have h0 := hpre 0 (by simp)
        rw [List.drop_zero] at h0
        have h1 := (dropPrefixAfter_isSome_iff markerChars (c :: pre')).mpr hpp
        rw [h0] at h1
        exact absurd h1 (by decide)
      · push_neg at hfits
        obtain ⟨t, ht⟩ := hocc
        exact marker_not_inside_marker ht (by simp) hfits
    | none =>
      rw [List.cons_append, searchMarker, hdp]
      exact ih (fun j hj => hpre (j + 1) (by simpa using Nat.succ_lt_succ hj))

/-! ### Claim theorems -/

/-- Claim C1: whenever the timeout expires before the command finishes,
`_run_cmd` returns normally (the model is a total function whose
timeout branch is an ordinary return) with the timeout flag true and
return code 137 regardless of the actual platform exit code, and the
output captured up to the timeout goes through the same cleanup
(rstrip, then color stripping) as the output of a plain run that
completes normally. -/
theorem c1_timeout_sentinel_and_cleanup
    (bufferOutput trackMemory toolExists : Bool) (captured : String) (rc : Int) :
    (runCmdFull bufferOutput trackMemory toolExists (.timeoutExpired captured)).timedOut
        = true ∧
    (runCmdFull bufferOutput trackMemory toolExists (.timeoutExpired captured)).returnCode
        = 137 ∧
    (runCmdFull bufferOutput trackMemory toolExists (.timeoutExpired captured)).output
        = (runCmdFull bufferOutput false toolExists (.completed captured rc)).output := by
  cases bufferOutput <;> by_cases h : captured = "" <;>
    simp [runCmdFull, h]

/-- Claim C6: stripping ANSI color escape sequences is idempotent. -/
theorem c6_strip_shell_colors_idempotent (s : String) :
    strip_shell_colors (strip_shell_colors s) = strip_shell_colors s :=
  congrArg String.mk (stripColorsList_idem s.data)

/-- Claim C4 counterexample: for the normally completed buffered run
whose raw captured output is "a \x1b[0m", the returned output is
"a ", which still ends in a whitespace character (its rstrip differs
from it), refuting the statement that the returned output never has
trailing whitespace.  The color sequence is removed only after the
trailing-whitespace trim, so the trim can be undone by the removal. -/
theorem c4_counterexample_trailing_space :
    (runCmdFull true false false (.completed "a \x1b[0m" 0)).output = some "a " ∧
      rstripList ("a ").data ≠ ("a ").data := by
  constructor
  · decide
  · decide

/-- Claim C4 as amended: for every plain (unmeasured) run that
completes normally with buffered output, the returned output is the
raw captured output first trimmed of trailing whitespace and then
stripped of ANSI color sequences, in that order, the stripping being
applied once, last; consequently the output contains no ANSI color
sequence, but it may end in whitespace that a removed trailing color
sequence had been covering. -/
theorem c4_amended_output_cleanup (toolExists : Bool) (captured : String) (rc : Int) :
    (runCmdFull true false toolExists (.completed captured rc)).output
        = some (basePost captured) ∧
      isClean (basePost captured).data = true := by
  constructor
  · by_cases h : captured = ""
    · subst h
      show some "" = some (basePost "")
      decide
    · simp [runCmdFull, h]
  · exact (stripAux_isClean (pyRstrip captured).data).1

/-- Claim C5 counterexample: for a measured run whose wall-clock
duration is 8/5 seconds, the recorded elapsed time is 1 (Python int
truncates toward zero), while the number max(1, round(8/5)) demanded
by the claim is 2. -/
theorem c5_counterexample_round_vs_trunc :
    (runMeasuredCmd true (8 / 5 : ℚ) (.completed "x" 0)).elapsed = 1 ∧
      max 1 (roundNearest (8 / 5 : ℚ)) = 2 := by
  constructor
  · show (if ratTrunc (8 / 5 : ℚ) = 0 then 1 else ratTrunc (8 / 5 : ℚ)) = 1
    norm_num [ratTrunc]
  · norm_num [roundNearest]

/-- Claim C5 as amended: for every measured run with nonnegative
wall-clock duration d, the recorded elapsed time equals
max(1, floor(d)) — the duration is truncated toward zero, not rounded
to the nearest integer, before the floor of 1 is applied. -/
theorem c5_amended_elapsed_max_floor (toolExists : Bool) (d : ℚ)
    (o : ChildOutcome) (hd : 0 ≤ d) :
    (runMeasuredCmd toolExists d o).elapsed = max 1 ⌊d⌋ :=
  elapsed_eq_max_one_floor toolExists d o hd

/-- Witness for the amended claim C5 at the concrete duration 5/2. -/
theorem c5_amended_witness :
    (0 : ℚ) ≤ 5 / 2 ∧
      (runMeasuredCmd true (5 / 2) (.completed "" 0)).elapsed = 2 := by
  refine ⟨by norm_num, ?_⟩
  rw [c5_amended_elapsed_max_floor true (5 / 2) (.completed "" 0) (by norm_num)]
  norm_num

/-- Claim C7: a measured run with the measurement utility available and
a nonnegative wall-clock duration always reports an elapsed time of at
least 1, even when the duration is below one second. -/
theorem c7_elapsed_at_least_one (d : ℚ) (o : ChildOutcome) (hd : 0 ≤ d) :
    1 ≤ (runMeasuredCmd true d o).elapsed := by
  rw [elapsed_eq_max_one_floor true d o hd]
  exact le_max_left _ _

/-- Witness for claim C7 at the sub-second duration 1/3. -/
theorem c7_witness :
    (0 : ℚ) ≤ 1 / 3 ∧
      1 ≤ (runMeasuredCmd true (1 / 3) (.completed "out" 0)).elapsed :=
  ⟨by norm_num, c7_elapsed_at_least_one (1 / 3) (.completed "out" 0) (by norm_num)⟩

/-- Claim C8 counterexample: a buffered run of a command that produces
no output returns the empty string in the output component, not the
absent value None, refuting the second half of the claim. -/
theorem c8_counterexample_empty_buffered :
    (runCmd true false (.completed "" 0)).1 = some "" ∧
      some "" ≠ (none : Option String) := by
  constructor
  · decide
  · simp

/-- Claim C8 as amended: with buffering off the returned output is
None regardless of what the child printed and regardless of the
outcome; with buffering on, a command that produces no output yields
the empty string (which is falsy in Python, collapsing with None for
truthiness tests) rather than None. -/
theorem c8_amended_output_presence :
    (∀ (trackMemory toolExists : Bool) (o : ChildOutcome),
        (runCmdFull false trackMemory toolExists o).output = none) ∧
    (∀ (trackMemory toolExists : Bool) (rc : Int),
        (runCmdFull true trackMemory toolExists (.completed "" rc)).output = some "") ∧
    (∀ (trackMemory toolExists : Bool),
        (runCmdFull true trackMemory toolExists (.timeoutExpired "")).output = some "") := by
  refine ⟨fun tm te o => ?_, fun tm te rc => by simp [runCmdFull],
    fun tm te => by simp [runCmdFull]⟩
  cases o <;> simp [runCmdFull]

/-- Claim C9: when the measurement utility is unavailable, a measured
run degrades silently: memory is reported as 0, and the output and
return code are exactly those of a plain buffered run of the same
command — no trailer parsing or trailer stripping happens, and no
error is surfaced (the model is a total function). -/
theorem c9_unavailable_tool_degrades (d : ℚ) (o : ChildOutcome) :
    (runMeasuredCmd false d o).memory = 0 ∧
    (runMeasuredCmd false d o).output = (runCmd true false o).1 ∧
    (runMeasuredCmd false d o).returnCode = (runCmd true false o).2.1 := by
  cases o with
  | completed captured rc =>
    by_cases h : captured = "" <;>
      simp [runMeasuredCmd, runCmd, runCmdFull, h]
  | timeoutExpired captured =>
    by_cases h : captured = "" <;>
      simp [runMeasuredCmd, runCmd, runCmdFull, h]

/-- Text used to exhibit that the measurement trailer survives a
timeout: the captured output of a measured run killed by the timeout,
still carrying the /usr/bin/time report. -/
def c10demo : String :=
  "hi\n    Command being timed: \"x\"\n    Maximum resident set size (kbytes): 4096"

/-- Claim C10: for a measured run (utility available) whose timeout
expires, memory is reported as 0 and the return code is the sentinel
137 — the `MeasuredResult` type has no timeout flag, the Python code
having discarded it, so 137 is the only signal of the timeout — and
the returned output keeps the measurement trailer: on the concrete
captured text `c10demo` the output is returned verbatim, still
containing the marker "Command being timed:". -/
theorem c10_measured_timeout_keeps_trailer :
    (∀ (d : ℚ) (captured : String),
        (runMeasuredCmd true d (.timeoutExpired captured)).memory = 0 ∧
        (runMeasuredCmd true d (.timeoutExpired captured)).returnCode = 137) ∧
    (runMeasuredCmd true 9 (.timeoutExpired c10demo)).output = some c10demo ∧
    firstOccIdx timedMarker c10demo.data ≠ none := by
  refine ⟨fun d captured => ?_, ?_, by decide⟩
  · by_cases h : captured = "" <;>
      simp [runMeasuredCmd, runCmdFull, h]
  · have h1 : rstripList c10demo.data = c10demo.data := by decide
    have h2 : isClean c10demo.data = true := by decide
    have h3 : basePost c10demo = c10demo := by
      show String.mk (stripColorsList (rstripList c10demo.data)) = c10demo
      rw [h1, stripColorsList_of_isClean _ h2]
    have h4 : c10demo ≠ "" := by decide
    simp [runMeasuredCmd, runCmdFull, h4, h3]

theorem splitHead_splitHead_eq_specCut (s : List Char) :
    splitHead exitedMarker (splitHead timedMarker s) = specCutAtEarlierMarker s := by
  have hE_ne : exitedMarker ≠ [] := by decide
  rw [splitHead_eq_take timedMarker s, splitHead_eq_take exitedMarker,
    List.take_take, specCutAtEarlierMarker]
  set a := occIdx timedMarker s with ha
  set b := occIdx exitedMarker s with hb
  by_cases hba : b < a
  · have ha_le : a ≤ s.length := occIdx_le_length _ _
    have hb_lt : b < s.length := lt_of_lt_of_le hba ha_le
    have hEsome : firstOccIdx exitedMarker s = some b := by
      cases h : firstOccIdx exitedMarker s with
      | none =>
        exfalso
        have hbL : b = s.length := by rw [hb, occIdx, h]; rfl
        omega
      | some i =>
        have hbi : b = i := by rw [hb, occIdx, h]; rfl
        rw [hbi]
    have hoccb := firstOccIdx_some_occ hEsome
    have hminb := firstOccIdx_some_min hEsome
    have hfit : b + exitedMarker.length ≤ a := by
      by_contra hcon
      push_neg at hcon
      cases h : firstOccIdx timedMarker s with
      | some i =>
        have hai : a = i := by rw [ha, occIdx, h]; rfl
        have hoccT : ∃ t, timedMarker ++ t = s.drop a := by
          rw [hai]; exact firstOccIdx_some_occ h
        refine exited_no_timed_inside (l := s.drop b) (k := a - b) hoccb ?_
          (by omega) (by omega)
        rw [List.drop_drop]
        have hsum : b + (a - b) = a := by omega
        rw [hsum]
        exact hoccT
      | none =>
        have haL : a = s.length := by rw [ha, occIdx, h]; rfl
        have := occ_length_le hE_ne hoccb
        omega
    have hfo : firstOccIdx exitedMarker (s.take a) = some b :=
      firstOccIdx_of_min hE_ne (occ_in_take_of_occ hoccb hfit)
        (fun j hj hex => hminb j hj (occ_of_occ_in_take hex))
    rw [occIdx, hfo, Option.getD_some]
    rw [show min b a = min a b from by omega]
  · push_neg at hba
    have hfo : firstOccIdx exitedMarker (s.take a) = none := by
      cases h : firstOccIdx exitedMarker (s.take a) with
      | none => rfl
      | some j =>
        exfalso
        have hocc := firstOccIdx_some_occ h
        have hjb := occ_length_le hE_ne hocc
        rw [List.length_take] at hjb
        have hocc_s := occ_of_occ_in_take hocc
        have hEpos : 0 < exitedMarker.length := by decide
        cases hEs : firstOccIdx exitedMarker s with
        | none => exact firstOccIdx_none_no_occ hE_ne hEs j hocc_s
        | some i =>
          have hbi : b = i := by rw [hb, occIdx, hEs]; rfl
          exact firstOccIdx_some_min hEs j (by omega) hocc_s
    rw [occIdx, hfo, Option.getD_none]
    rw [List.length_take]
    rw [show min (min a s.length) a = min a s.length from by omega,
      show min a b = a from by omega]
    rw [← List.take_take, List.take_length]

/-- Claim C3: the cleaned output of a measured run is exactly the text
preceding whichever of the two /usr/bin/time boundary markers occurs
first in the captured text (the whole text when neither occurs),
trimmed of trailing whitespace; the two sequential Python split cuts
are equivalent to one cut at the earlier marker.  On the concrete
captured text of the claim the cleaned output is "hello" and the
extracted memory is 4 MB. -/
theorem c3_cut_at_earlier_marker :
    (∀ s : String, get_clean_output_from_measured_output s =
        String.mk (rstripList (specCutAtEarlierMarker s.data))) ∧
    get_clean_output_from_measured_output
      "hello\n    Command being timed: \"x\"\n    Maximum resident set size (kbytes): 4096\n"
      = "hello" ∧
    get_memory_from_measured_output
      "hello\n    Command being timed: \"x\"\n    Maximum resident set size (kbytes): 4096\n"
      = 4 := by
  refine ⟨fun s => ?_, by decide, by decide⟩
  show String.mk (rstripList (splitHead exitedMarker (splitHead timedMarker s.data))) = _
  rw [splitHead_splitHead_eq_specCut]

/-- Claim C2 counterexample: an output whose marker reports 0 kbytes is
assigned memory 1, not the 0 the claim announces for a reported zero:
the group "0" is a nonempty string, hence truthy, so the conversion
runs and the floor of 1 is applied to the zero quotient. -/
theorem c2_counterexample_zero_kbytes :
    get_memory_from_measured_output "Maximum resident set size (kbytes): 0" ≠ 0 ∧
      get_memory_from_measured_output "Maximum resident set size (kbytes): 0" = 1 := by
  constructor
  · decide
  · decide

/-- Claim C2 as amended: for every measured output containing the
marker followed by the digits of k, with arbitrary preceding text in
which the marker does not occur (so the shown occurrence is the
leftmost match of the search), the reported memory is floor(k/1024)
with a floor of 1 applied whenever that quotient is 0 — including a
reported k = 0; the reported memory is 0 exactly when the search finds
no marker-with-digits match at all; in particular k = 2048 yields 2,
k = 1 yields 1, and k = 0 yields 1. -/
theorem c2_amended_kb_to_mb :
    (∀ (pre ds post : List Char), ds ≠ [] → (∀ c ∈ ds, c.isDigit = true) →
        post.head?.all (fun c => !c.isDigit) = true →
        (∀ j < pre.length,
          (dropPrefixAfter markerChars (pre.drop j)).isSome = false) →
        get_memory_from_measured_output
            (String.mk (pre ++ (markerChars ++ (ds ++ post)))) =
          if natOfDigits ds / 1024 = 0 then 1 else natOfDigits ds / 1024) ∧
    (∀ s : String,
        get_memory_from_measured_output s = 0 ↔ searchMarker s.data = none) ∧
    get_memory_from_measured_output "Maximum resident set size (kbytes): 2048" = 2 ∧
    get_memory_from_measured_output "Maximum resident set size (kbytes): 1" = 1 ∧
    get_memory_from_measured_output "Maximum resident set size (kbytes): 0" = 1 := by
  refine ⟨fun pre ds post hne hds hpost hpre => ?_, fun s => ?_,
    by decide, by decide, by decide⟩
  · have hsm := searchMarker_first_at pre ds post hne hds hpost hpre
    show (match searchMarker (pre ++ (markerChars ++ (ds ++ post))) with
      | none => 0
      | some ds2 => if natOfDigits ds2 / 1024 = 0 then 1 else natOfDigits ds2 / 1024) =
        if natOfDigits ds / 1024 = 0 then 1 else natOfDigits ds / 1024
    rw [hsm]
  · rw [get_memory_from_measured_output]
    cases h : searchMarker s.data with
    | none => simp
    | some ds =>
      by_cases hq : natOfDigits ds / 1024 = 0 <;> simp [hq]

/-- Witness for the amended claim C2: a line of tool output precedes
the trailer, the reported digits are 2048 and a newline follows. -/
theorem c2_amended_witness :
    ("2048".data ≠ [] ∧ (∀ c ∈ "2048".data, c.isDigit = true) ∧
        (∀ j < "tool output\n".data.length,
          (dropPrefixAfter markerChars ("tool output\n".data.drop j)).isSome = false)) ∧
      get_memory_from_measured_output
        (String.mk ("tool output\n".data ++ (markerChars ++ ("2048".data ++ "\n".data)))) = 2 := by
  refine ⟨⟨by decide, by decide, by decide⟩, ?_⟩
  rw [c2_amended_kb_to_mb.1 "tool output\n".data "2048".data "\n".data (by decide)
    (by decide) (by decide) (by decide)]
  decide

end RetdecUtils
